import Mathlib

/-!
# Verification of podiffutils (three-way merge for translation catalogs)

This file gives a shallow embedding of the merge engine of `podiffutils.py`:
the order-preserving set matchers (`SetMatcher2`, `SetMatcher3`), the simple
and list three-way merges, the catalog merger (`DiffUtils.merge` /
`DiffUtils.merge_unit`), and the PO-specific structural merge
(`_PoFileDiff._merge_unit`, `_merge_header`, `_merge_target`, `_get_time`).

Mutable Python state is embedded as explicit state passing: the matchers'
`item_map` becomes a pure lookup over the input lists, the per-slot `done`
flags become a list of emitted keys, the walkers become list suffixes, and
the generator loops become fuel-indexed recursion.  Python exceptions
(failed `assert`s, `ValueError`, `TypeError`, `AttributeError` on `None`)
are embedded as `Except` errors.
-/

namespace Podiffutils

/-- Errors of the embedded program: exhausted fuel stands for a loop that
makes no progress, the `assert*` constructors stand for failed `assert`
statements, `valueError` for the `ValueError` of `merge_simple`,
`typeError` for the `TypeError` raised by matching a regex against `None`,
and `noneAttr` for an `AttributeError` from calling a method on `None`. -/
inductive PErr where
  | fuelOut
  | assertEmit       -- `assert not i.done` before a yield
  | assertWalker     -- `assert not ow.valid()` / `assert not nw.valid()` etc.
  | assertCoverage   -- the final all-items-done assertion
  | valueError
  | typeError
  | noneAttr
  deriving DecidableEq, Repr

/-! ## List helper lemmas (proved from first principles) -/

theorem dropWhile_cons_false {α : Type _} {p : α → Bool} :
    ∀ {xs : List α} {y : α} {ys : List α}, xs.dropWhile p = y :: ys → p y = false := by
  intro xs
  induction xs with
  | nil => intro y ys h; simp [List.dropWhile] at h
  | cons x xs ih =>
    intro y ys h
    by_cases hx : p x
    · rw [List.dropWhile, hx] at h
      exact ih h
    · rw [List.dropWhile] at h
      simp only [Bool.not_eq_true] at hx
      rw [hx] at h
      cases h
      simpa using hx

theorem dropWhile_decomp {α : Type _} (p : α → Bool) :
    ∀ xs : List α, ∃ t, xs = t ++ xs.dropWhile p ∧ ∀ u ∈ t, p u = true := by
  intro xs
  induction xs with
  | nil => exact ⟨[], rfl, by simp⟩
  | cons x xs ih =>
    by_cases hx : p x
    · obtain ⟨t, ht, hall⟩ := ih
      refine ⟨x :: t, ?_, ?_⟩
      · rw [List.dropWhile, hx]; simpa using ht
      · intro u hu
        rcases List.mem_cons.mp hu with h | h
        · subst h; exact hx
        · exact hall u h
    · refine ⟨[], ?_, by simp⟩
      simp only [Bool.not_eq_true] at hx
      simp [List.dropWhile, hx]

theorem dropWhile_length_le {α : Type _} (p : α → Bool) :
    ∀ xs : List α, (xs.dropWhile p).length ≤ xs.length := by
  intro xs
  induction xs with
  | nil => simp [List.dropWhile]
  | cons x xs ih =>
    by_cases hx : p x
    · rw [List.dropWhile, hx]; exact Nat.le_succ_of_le ih
    · rw [List.dropWhile]
      simp only [Bool.not_eq_true] at hx
      rw [hx]

theorem filter_map_comm {α β : Type _} (f : α → β) (p : β → Bool) :
    ∀ l : List α, (l.map f).filter p = (l.filter (fun a => p (f a))).map f := by
  intro l
  induction l with
  | nil => rfl
  | cons x xs ih =>
    by_cases hx : p (f x)
    · simp [List.filter, hx, ih]
    · simp only [Bool.not_eq_true] at hx
      simp [List.filter, hx, ih]

theorem filter_congr_mem {α : Type _} {p q : α → Bool} :
    ∀ {l : List α}, (∀ a ∈ l, p a = q a) → l.filter p = l.filter q := by
  intro l
  induction l with
  | nil => intro _; rfl
  | cons x xs ih =>
    intro h
    have hx := h x (List.mem_cons_self _ _)
    have hxs := ih (fun a ha => h a (List.mem_cons_of_mem _ ha))
    simp only [List.filter, hx, hxs]

theorem filter_eq_nil_of_not_mem {α : Type _} [DecidableEq α] {k : α} :
    ∀ {l : List α}, k ∉ l → l.filter (fun x => decide (x = k)) = [] := by
  intro l
  induction l with
  | nil => intro _; rfl
  | cons x xs ih =>
    intro h
    have hx : x ≠ k := fun e => h (e ▸ List.mem_cons_self _ _)
    have hxs : k ∉ xs := fun m => h (List.mem_cons_of_mem _ m)
    simp [List.filter, hx, ih hxs]

theorem filter_eq_singleton_of_nodup {α : Type _} [DecidableEq α] {k : α} :
    ∀ {l : List α}, l.Nodup → k ∈ l → l.filter (fun x => decide (x = k)) = [k] := by
  intro l
  induction l with
  | nil => intro _ h; cases h
  | cons x xs ih =>
    intro hnd hk
    rcases List.mem_cons.mp hk with h | h
    · subst h
      have hnx : k ∉ xs := (List.nodup_cons.mp hnd).1
      simp [List.filter, filter_eq_nil_of_not_mem hnx]
    · have hx : x ≠ k := by
        intro e; subst e
        exact (List.nodup_cons.mp hnd).1 h
      simp [List.filter, hx, ih (List.nodup_cons.mp hnd).2 h]

/-! ## The three-way set matcher (`SetMatcher3`)

`_fill_item_map` scans each input in turn and overwrites the slot field, so
the slot for a key holds the *last* unit of each input with that key; we
embed this as `lookupLast`.  The generator `match` is embedded as the
fuel-indexed loop `match3Loop` (main phase), `drain3` (base-drain phase)
and `match3` (wrapper including the final assertions). -/

/-- Last element of `xs` whose key is `k` — the content of an `item_map`
slot field after `_fill_item_map` (later units overwrite earlier ones). -/
def lookupLast {U K : Type} [DecidableEq K] (kf : U → K) (xs : List U) (k : K) : Option U :=
  xs.foldl (fun acc u => if kf u = k then some u else acc) none

/-- A matcher triple `(i.base, i.local, i.remote)`. -/
abbrev T3 (U : Type) := Option U × Option U × Option U

/-- The `item_map` slot for key `k`. -/
def slotT3 {U K : Type} [DecidableEq K] (kf : U → K) (b l r : List U) (k : K) : T3 U :=
  (lookupLast kf b k, lookupLast kf l k, lookupLast kf r k)

/-- `deletedfunc` lifted to `Option`; the source only ever applies it to a
unit it has just pulled from a walker (hence non-`None`) or behind a
short-circuiting `and` whose left side guarantees presence. -/
def deletedOpt {U : Type} (df : U → Bool) : Option U → Bool
  | none => false
  | some u => df u

/-- `not_local` of `SetMatcher3.match`: the slot's local unit is absent, or
it is deleted while the remote one is not. -/
def notLocal3 {U K : Type} [DecidableEq K] (kf : U → K) (df : U → Bool)
    (l r : List U) (k : K) : Bool :=
  match lookupLast kf l k with
  | none => true
  | some lu => df lu && !(deletedOpt df (lookupLast kf r k))

/-- Main loop of `SetMatcher3.match`.  State: remaining local and remote
walker suffixes, the keys of slots marked `done`, and the emitted triples.
Each iteration emits the remote head (inject rule) or the local head, then
advances both walkers past already-done slots. -/
def match3Loop {U K : Type} [DecidableEq K] (kf : U → K) (df : U → Bool) (b l r : List U) :
    Nat → List U → List U → List K → List (T3 U) → Except PErr (List (T3 U) × List K)
  | 0, _, _, _, _ => .error .fuelOut
  | Nat.succ fuel, ls, rs, done, out =>
    match ls, rs with
    | [], [] => .ok (out, done)
    | ls, ru :: rs' =>
      if notLocal3 kf df l r (kf ru) then
        if kf ru ∈ done then .error .assertEmit
        else
          match3Loop kf df b l r fuel
            (ls.dropWhile (fun u => decide (kf u ∈ kf ru :: done)))
            (rs'.dropWhile (fun u => decide (kf u ∈ kf ru :: done)))
            (kf ru :: done)
            (out ++ [slotT3 kf b l r (kf ru)])
      else
        match ls with
        | lu :: ls' =>
          if kf lu ∈ done then .error .assertEmit
          else
            match3Loop kf df b l r fuel
              (ls'.dropWhile (fun u => decide (kf u ∈ kf lu :: done)))
              ((ru :: rs').dropWhile (fun u => decide (kf u ∈ kf lu :: done)))
              (kf lu :: done)
              (out ++ [slotT3 kf b l r (kf lu)])
        | [] =>
          -- neither branch fires: only the sweep runs (the Python loop
          -- would spin here; fuel models that)
          match3Loop kf df b l r fuel []
            ((ru :: rs').dropWhile (fun u => decide (kf u ∈ done)))
            done out
    | lu :: ls', [] =>
      if kf lu ∈ done then .error .assertEmit
      else
        match3Loop kf df b l r fuel
          (ls'.dropWhile (fun u => decide (kf u ∈ kf lu :: done)))
          []
          (kf lu :: done)
          (out ++ [slotT3 kf b l r (kf lu)])

/-- Base-drain phase: emit remaining not-yet-done base slots in base order. -/
def drain3 {U K : Type} [DecidableEq K] (kf : U → K) (b l r : List U) :
    List U → List K → List (T3 U) → List (T3 U) × List K
  | [], done, out => (out, done)
  | bu :: bs, done, out =>
    if kf bu ∈ done then drain3 kf b l r bs done out
    else drain3 kf b l r bs (kf bu :: done) (out ++ [slotT3 kf b l r (kf bu)])

/-- `SetMatcher3.match`: main loop, base drain, then the terminal
assertions (exhausted walkers are implied by reaching the end of the loop;
the all-slots-done assertion is the final check). -/
def match3 {U K : Type} [DecidableEq K] (kf : U → K) (df : U → Bool)
    (b l r : List U) : Except PErr (List (T3 U)) := do
  let (out, done) ← match3Loop kf df b l r (l.length + r.length + 1) l r [] []
  let (out, done) := drain3 kf b l r b done out
  if ((b ++ l ++ r).map kf).all (fun k => decide (k ∈ done)) then pure out
  else .error .assertCoverage

/-! ## The two-way set matcher (`SetMatcher2`)

Embedded faithfully, including the main-loop condition
`while ow.valid() and nw.valid()` (a conjunction, unlike the disjunction in
`SetMatcher3.match`). -/

abbrev T2 (U : Type) := Option U × Option U

def slotT2 {U K : Type} [DecidableEq K] (kf : U → K) (o n : List U) (k : K) : T2 U :=
  (lookupLast kf o k, lookupLast kf n k)

/-- `not_old` of `SetMatcher2.match`. -/
def notOld2 {U K : Type} [DecidableEq K] (kf : U → K) (df : U → Bool)
    (o n : List U) (k : K) : Bool :=
  match lookupLast kf o k with
  | none => true
  | some ou => df ou && !(deletedOpt df (lookupLast kf n k))

/-- Main loop of `SetMatcher2.match`.  The loop runs only while *both*
walkers are valid; it returns the remaining walker states so the wrapper
can run the terminal assertions on them. -/
def match2Loop {U K : Type} [DecidableEq K] (kf : U → K) (df : U → Bool) (o n : List U) :
    Nat → List U → List U → List K → List (T2 U) →
    Except PErr (List (T2 U) × List K × List U × List U)
  | 0, _, _, _, _ => .error .fuelOut
  | Nat.succ fuel, ls, rs, done, out =>
    match ls, rs with
    | ou :: ls', nu :: rs' =>
      if notOld2 kf df o n (kf nu) then
        if kf nu ∈ done then .error .assertEmit
        else
          match2Loop kf df o n fuel
            ((ou :: ls').dropWhile (fun u => decide (kf u ∈ kf nu :: done)))
            (rs'.dropWhile (fun u => decide (kf u ∈ kf nu :: done)))
            (kf nu :: done)
            (out ++ [slotT2 kf o n (kf nu)])
      else
        if kf ou ∈ done then .error .assertEmit
        else
          match2Loop kf df o n fuel
            (ls'.dropWhile (fun u => decide (kf u ∈ kf ou :: done)))
            ((nu :: rs').dropWhile (fun u => decide (kf u ∈ kf ou :: done)))
            (kf ou :: done)
            (out ++ [slotT2 kf o n (kf ou)])
    | ls, rs => .ok (out, done, ls, rs)

/-- `SetMatcher2.match`: main loop plus the three terminal assertions
(`assert not ow.valid()`, `assert not nw.valid()`, all items done). -/
def match2 {U K : Type} [DecidableEq K] (kf : U → K) (df : U → Bool)
    (o n : List U) : Except PErr (List (T2 U)) := do
  let (out, _done, ls, rs) ← match2Loop kf df o n (o.length + n.length + 1) o n [] []
  if !ls.isEmpty then .error .assertWalker
  else if !rs.isEmpty then .error .assertWalker
  else if ((o ++ n).map kf).all (fun k => decide (k ∈ _done)) then pure out
  else .error .assertCoverage

/-! ## Simple and list merges (`DiffUtils.merge_simple`, `merge_list`) -/

/-- `DiffUtils.merge_simple`: three-way merge of an equatable scalar;
raises `ValueError` when the three values are pairwise distinct. -/
def mergeSimple {α : Type} [DecidableEq α] (b l r : α) : Except PErr α :=
  if b = r then .ok l
  else if b = l then .ok r
  else if l = r then .ok l
  else .error .valueError

/-- `DiffUtils.merge_list`: run the three-way matcher with identity key
function and default deleted predicate, merge each slot with
`merge_simple`, and drop `None` results. -/
def mergeList {α : Type} [DecidableEq α] (b l r : List α) : Except PErr (List α) := do
  let ts ← match3 (fun x => x) (fun _ => false) b l r
  let vals ← ts.mapM (fun t => mergeSimple t.1 t.2.1 t.2.2)
  pure (vals.filterMap (fun x => x))

/-! ## The catalog merger (`DiffUtils.merge`), generic over the unit merger

`DiffUtils` is an abstract base class: `merge` only uses `merge_unit`,
`isheader`, `isobsolete` and the key function, so we embed it generically
and instantiate it for the PO differ below. -/

/-- One iteration of the bucket-routing loop of `DiffUtils.merge`. -/
def mergeStep {U : Type} (mu : Option U → Option U → Option U → Except PErr (Option U × Nat))
    (isH isO : U → Bool) (st : List U × List U × List U × Nat) (t : T3 U) :
    Except PErr (List U × List U × List U × Nat) := do
  let (hs, ns, os, c) := st
  let (u?, cu) ← mu t.1 t.2.1 t.2.2
  let (hs, ns, os) :=
    match u? with
    | none => (hs, ns, os)
    | some u =>
      if isH u then (hs ++ [u], ns, os)
      else if isO u then (hs, ns, os ++ [u])
      else (hs, ns ++ [u], os)
  pure (hs, ns, os, c + cu)

/-- `DiffUtils.merge`: run the matcher keyed on unit ids with
`deletedfunc = isobsolete`, merge each triple, route results into header /
normal / obsolete buckets, and append the buckets in that order. -/
def mergeCatalog {U K : Type} [DecidableEq K]
    (mu : Option U → Option U → Option U → Except PErr (Option U × Nat))
    (isH isO : U → Bool) (kf : U → K) (b l r : List U) :
    Except PErr (List U × Nat) := do
  let ts ← match3 kf isO b l r
  let (hs, ns, os, c) ← ts.foldlM (mergeStep mu isH isO) ([], [], [], 0)
  pure (hs ++ ns ++ os, c)

/-- The list of merged units in matcher order together with the conflict
total, before bucket routing; used to state the band invariant. -/
def mergedUnits {U : Type} (mu : Option U → Option U → Option U → Except PErr (Option U × Nat)) :
    List (T3 U) → Except PErr (List U × Nat)
  | [] => .ok ([], 0)
  | t :: ts => do
    let (u?, cu) ← mu t.1 t.2.1 t.2.2
    let (us, c) ← mergedUnits mu ts
    pure (u?.toList ++ us, cu + c)

/-! ## PO data model

The core consumes the abstract `CatalogUnit` interface of spec §6; the
concrete catalog layer (translate.storage.pypo / poheader) is an external
collaborator.  `PoUnit` carries exactly the capabilities the merge engine
reads and writes. -/

/-- A translation target: a plain string or a `multistring` (plural forms
exposing a `strings` list). -/
inductive Target where
  | single (s : String)
  | plural (ss : List String)
  deriving DecidableEq, Repr

/-- `getattr(target, "strings", [target])`. -/
def Target.strs : Target → List String
  | .single s => [s]
  | .plural ss => ss

/-- The primary string value of a target (a `multistring` behaves as its
first string when used as a plain string). -/
def Target.primary : Target → String
  | .single s => s
  | .plural ss => ss.headD ""

/-- Python truthiness `bool(target)`. -/
def Target.truthy (t : Target) : Bool := !t.primary.isEmpty

/-- A PO catalog unit, restricted to the capabilities the merge engine
uses (spec §6). -/
structure PoUnit where
  source : Target := .single ""
  context : String := ""
  target : Target := .single ""
  fuzzy : Bool := false
  obsolete : Bool := false
  locations : List String := []
  /-- developer notes, newline-joined as `getnotes` returns them -/
  devNotes : String := ""
  /-- translator notes, newline-joined -/
  transNotes : String := ""
  /-- raw `#, …` type-comment lines -/
  typeComments : List String := []
  prevMsgctxt : List String := []
  prevMsgid : List String := []
  prevMsgidPlural : List String := []
  /-- `getattr(unit._store, 'filename', default)` -/
  storeFilename : Option String := none
  /-- `unit._store.parseheader().get("Project-Id-Version")` -/
  storeProject : Option String := none
  deriving DecidableEq, Repr

/-- Modelled from the spec: `CatalogUnit.key()` (§6), stable identity from
source and disambiguating context (external catalog layer). -/
def PoUnit.getid (u : PoUnit) : String :=
  if u.context.isEmpty then u.source.primary
  else u.context ++ "\x04" ++ u.source.primary

def PoUnit.isobsolete (u : PoUnit) : Bool := u.obsolete

/-- `makeobsolete()` (one-way, spec §6). -/
def PoUnit.makeobsolete (u : PoUnit) : PoUnit := { u with obsolete := true }

/-- Modelled from the spec: `isheader()` (§6) — the distinguished unit with
empty id and a metadata body (external catalog layer). -/
def PoUnit.isheader (u : PoUnit) : Bool := u.getid.isEmpty && u.target.truthy

/-- A string that is empty or whitespace only. -/
def strBlank (s : String) : Bool := s.data.all Char.isWhitespace

/-- Modelled from the spec: `isblank()` (§6) — true iff the target is
empty/whitespace (external catalog layer). -/
def PoUnit.isblank (u : PoUnit) : Bool := u.target.strs.all strBlank

/-- Modelled from the spec: `hasplural()` (§6) — whether the unit has
plural forms, i.e. its source is a multistring (external catalog layer). -/
def PoUnit.hasplural (u : PoUnit) : Bool :=
  match u.source with
  | .plural _ => true
  | .single _ => false

/-- `DiffUtils.clone_unit` (`deepcopy`): in a pure embedding a value copy. -/
def cloneUnit (u : PoUnit) : PoUnit := u

/-- `_PoFileDiff.empty_unit`: fresh unit of the template's type with the
template's source and context. -/
def emptyUnit (tpl : PoUnit) : PoUnit :=
  { source := tpl.source, context := tpl.context }

/-- `_PoFileDiff._equal_translation`: same target, and same fuzziness
unless the (left) target is blank. -/
def equalTranslation (left right : PoUnit) : Bool :=
  left.target == right.target && ((left.fuzzy == right.fuzzy) || !left.target.truthy)

/-! ## Type-comment flag extraction (`_get_types` / `_set_types`)

`re.findall(r"\b[-\w]+\b", text)` returns, for each maximal run of
word-or-hyphen characters, the run with leading and trailing hyphens
stripped (a `\b` boundary needs a word character on the inside); runs of
hyphens only produce no token. -/

def isWordChar (c : Char) : Bool := c.isAlphanum || c = '_'

def isTokChar (c : Char) : Bool := isWordChar c || c = '-'

/-- Maximal runs of token characters in a character list. -/
def tokenRuns : List Char → List (List Char)
  | [] => []
  | c :: cs =>
    if isTokChar c then
      let run := (c :: cs).takeWhile isTokChar
      let rest := (c :: cs).dropWhile isTokChar
      run :: tokenRuns rest
    else tokenRuns cs
  termination_by cs => cs.length
  decreasing_by
    · simp only [List.dropWhile_cons_of_pos ‹isTokChar c = true›]
      exact Nat.lt_succ_of_le (dropWhile_length_le _ _)
    · simp

/-- Strip leading and trailing hyphens of a run (the `\b` anchors). -/
def trimHyphens (cs : List Char) : List Char :=
  ((cs.dropWhile (· = '-')).reverse.dropWhile (· = '-')).reverse

/-- `_PoFileDiff._get_types`: word/hyphen tokens of the joined type
comments, excluding `fuzzy`. -/
def getTypes (u : PoUnit) : List String :=
  (((tokenRuns (String.intercalate "\n" u.typeComments).data).map trimHyphens).filterMap
      (fun cs => if cs.isEmpty then none else some (String.mk cs))).filter
    (fun t => t ≠ "fuzzy")

/-- `_PoFileDiff._set_types`. -/
def setTypes (types : List String) : List String :=
  if types.isEmpty then [] else ["#, " ++ String.intercalate ", " types ++ "\n"]

/-! ## Timestamp parsing (`_PoFileDiff._get_time`)

The regex
`([0-9]{4})-([0-9]{1,2})-([0-9]{1,2})\s+([0-9]{1,2}):([0-9]{1,2})(?::[0-9]{1,2})?\s*([+-][0-9]{2})([0-9]{2})`
is embedded as a hand-rolled matcher with the same greedy-with-backtracking
behaviour for the `{1,2}` groups; `re.match` anchors at the start only. -/

def digitVal (c : Char) : Nat := c.toNat - '0'.toNat

/-- `[0-9]{1,2}` (greedy, backtracking) followed by the continuation. -/
def num12 {α : Type} (cont : List Char → Option α) : List Char → Option (Nat × α)
  | c1 :: c2 :: rest =>
    if c1.isDigit && c2.isDigit then
      match cont rest with
      | some a => some (10 * digitVal c1 + digitVal c2, a)
      | none => (cont (c2 :: rest)).map (fun a => (digitVal c1, a))
    else if c1.isDigit then (cont (c2 :: rest)).map (fun a => (digitVal c1, a))
    else none
  | [c1] => if c1.isDigit then (cont []).map (fun a => (digitVal c1, a)) else none
  | [] => none

/-- `([+-][0-9]{2})([0-9]{2})` — group 6 is the sign with the two hour
digits, group 7 the two minute digits; trailing input is ignored
(`re.match` is a prefix match). -/
def parseOffset : List Char → Option (Bool × Nat × Nat)
  | s :: h1 :: h2 :: m1 :: m2 :: _ =>
    if (s = '+' || s = '-') && h1.isDigit && h2.isDigit && m1.isDigit && m2.isDigit then
      some (s = '+', 10 * digitVal h1 + digitVal h2, 10 * digitVal m1 + digitVal m2)
    else none
  | _ => none

/-- `(?::[0-9]{1,2})?\s*` then the offset groups. -/
def parseAfterMinute (cs : List Char) : Option (Bool × Nat × Nat) :=
  let tail := fun cs2 => parseOffset (List.dropWhile Char.isWhitespace cs2)
  match cs with
  | ':' :: rest =>
    match num12 tail rest with
    | some (_, a) => some a
    | none => tail cs
  | _ => tail cs

/-- hour `:` minute, then `parseAfterMinute`. -/
def parseHourMin (cs : List Char) : Option (Nat × (Nat × (Bool × Nat × Nat))) :=
  num12 (fun cs2 =>
    match cs2 with
    | ':' :: cs3 => num12 parseAfterMinute cs3
    | _ => none) cs

/-- day, `\s+`, then time-of-day. -/
def parseDayTime (cs : List Char) : Option (Nat × (Nat × (Nat × (Bool × Nat × Nat)))) :=
  num12 (fun cs2 =>
    match cs2 with
    | c :: cs3 =>
      if c.isWhitespace then parseHourMin (List.dropWhile Char.isWhitespace cs3)
      else none
    | [] => none) cs

/-- month `-` day …. -/
def parseMonthRest (cs : List Char) :
    Option (Nat × (Nat × (Nat × (Nat × (Bool × Nat × Nat))))) :=
  num12 (fun cs2 =>
    match cs2 with
    | '-' :: cs3 => parseDayTime cs3
    | _ => none) cs

/-- The captured groups of `_time_pattern`. -/
structure TimeGroups where
  year : Nat
  month : Nat
  day : Nat
  hour : Nat
  minute : Nat
  /-- sign of group 6 (`true` for `+`) -/
  signPlus : Bool
  /-- the two hour digits of group 6 -/
  offH : Nat
  /-- group 7 -/
  offM : Nat
  deriving DecidableEq, Repr

/-- `_time_pattern.match(timestr)`. -/
def parseTimeGroups (s : String) : Option TimeGroups :=
  match s.data with
  | y1 :: y2 :: y3 :: y4 :: '-' :: rest =>
    if y1.isDigit && y2.isDigit && y3.isDigit && y4.isDigit then
      match parseMonthRest rest with
      | some (mo, d, h, mi, sp, oh, om) =>
        some { year := 1000 * digitVal y1 + 100 * digitVal y2 + 10 * digitVal y3 + digitVal y4,
               month := mo, day := d, hour := h, minute := mi,
               signPlus := sp, offH := oh, offM := om }
      | none => none
    else none
  | _ => none

/-- Days from the epoch of a civil date (Howard Hinnant's algorithm); all
intermediate quantities are non-negative for the years the pattern can
produce, so the rounding convention of integer division is immaterial. -/
def daysFromCivil (y : Int) (m d : Nat) : Int :=
  let y' : Int := if m ≤ 2 then y - 1 else y
  let era : Int := (if 0 ≤ y' then y' else y' - 399) / 400
  let yoe : Int := y' - era * 400
  let mp : Int := ((m : Int) + 9) % 12
  let doy : Int := (153 * mp + 2) / 5 + (d : Int) - 1
  let doe : Int := yoe * 365 + yoe / 4 - yoe / 100 + doy
  era * 146097 + doe - 719468

/-- `time.mktime(tuple) + time.timezone`: the parsed civil time interpreted
as UTC, in seconds since the epoch (seconds field is passed as 0). -/
def mktimeUTC (g : TimeGroups) : Int :=
  daysFromCivil (g.year : Int) g.month g.day * 86400 + (g.hour : Int) * 3600 + (g.minute : Int) * 60

/-- `int(m.group(6))`: the signed hour count. -/
def pyIntGroup6 (g : TimeGroups) : Int :=
  if g.signPlus then (g.offH : Int) else -(g.offH : Int)

/-- `_PoFileDiff._get_time`.  `None` (absent header field) raises
`TypeError` when matched against the regex; a non-matching string returns
0; a matching string gets `int(group6)*3600 + int(group6)*(±60)` **added**
(group 7 is never used). -/
def getTime : Option String → Except PErr Int
  | none => .error .typeError
  | some s =>
    match parseTimeGroups s with
    | some g =>
      .ok (mktimeUTC g + pyIntGroup6 g * 3600 + pyIntGroup6 g * (if g.signPlus then 60 else -60))
    | none => .ok 0

/-- Modelled from the spec: §4.3.2 timestamp parsing — offset seconds are
`sign × (HH × 3600 + MM × 60)`, subtracted from the stated local time to
reach UTC; invalid or absent strings parse to the epoch (0). -/
def specGetTime : Option String → Except PErr Int
  | none => .ok 0
  | some s =>
    match parseTimeGroups s with
    | some g =>
      .ok (mktimeUTC g -
        (if g.signPlus then 1 else -1) * ((g.offH : Int) * 3600 + (g.offM : Int) * 60))
    | none => .ok 0

/-! ## Header merge (`_PoFileDiff._merge_header`) -/

/-- The template-header subset arbitrated by `POT-Creation-Date`. -/
def templateHeaders : List String :=
  ["Project-Id-Version", "Report-Msgid-Bugs-To", "POT-Creation-Date", "Language-Team"]

/-- The side-specific timestamp field used to arbitrate a conflict on `key`. -/
def fieldFor (key : String) : String :=
  if key ∈ templateHeaders then "POT-Creation-Date" else "PO-Revision-Date"

/-- `dict.get(key, None)` on a parsed header (an ordered map represented as
an association list; a later binding overwrites an earlier one). -/
def dGet (d : List (String × String)) (k : String) : Option String :=
  d.foldl (fun acc p => if p.1 = k then some p.2 else acc) none

/-- `newer(left, right, attribute)`: local wins ties (`>=`). -/
def headerNewer (ld rd : List (String × String)) (attr : String) : Except PErr Bool := do
  let tl ← getTime (dGet ld attr)
  let tr ← getTime (dGet rd attr)
  pure (tr ≤ tl)

/-- The body of the per-key loop of `_merge_header`: the resolved value,
any conflict note, and whether this key was a conflict. -/
def resolveHeaderKey (bd ld rd : List (String × String)) (lfile rfile : Option String)
    (key : String) : Except PErr (Option String × List String × Bool) := do
  let b := dGet bd key
  let l := dGet ld key
  let r := dGet rd key
  if b = l then pure (r, [], false)
  else if b = r ∨ l = r then pure (l, [], false)
  else do
    let useLocal ← headerNewer ld rd (fieldFor key)
    let other := if useLocal then rd else ld
    let ofileName := if useLocal then rfile.getD "remote" else lfile.getD "local"
    let res := dGet (if useLocal then ld else rd) key
    let note := "(conflict) " ++ ofileName ++ " ("
      ++ (dGet other "Project-Id-Version").getD "???" ++ "): " ++ key ++ ": "
      ++ (dGet other key).getD "<unset>"
    pure (res, [note], true)

/-- One iteration of the per-key loop, accumulating the output target text,
the conflict notes and the conflict count (which is *set* to 1, not
incremented, on a conflict). -/
def mergeHeaderStep (bd ld rd : List (String × String)) (lfile rfile : Option String)
    (st : String × List String × Nat) (key : String) :
    Except PErr (String × List String × Nat) := do
  let (res, notes, confl) ← resolveHeaderKey bd ld rd lfile rfile key
  let c := if confl then 1 else st.2.2
  let tgt :=
    match res with
    | some v => st.1 ++ key ++ ": " ++ v ++ "\n"
    | none => st.1
  pure (tgt, st.2.1 ++ notes, c)

/-- `_merge_header` on the three parsed header dictionaries: merged key
list via `merge_list`, then the per-key loop. -/
def mergeHeaderCore (bd ld rd : List (String × String)) (lfile rfile : Option String) :
    Except PErr (String × List String × Nat) := do
  let allkeys ← mergeList (bd.map Prod.fst) (ld.map Prod.fst) (rd.map Prod.fst)
  allkeys.foldlM (mergeHeaderStep bd ld rd lfile rfile) ("", [], 0)

/-- Modelled from the spec: `poheader.parseheaderstring` (external) —
parse a multi-line `Key: Value\n` block into an ordered map (§4.3.2). -/
def parseHeaderString (s : String) : List (String × String) :=
  (s.splitOn "\n").filterMap (fun line =>
    let cs := line.data
    let k := cs.takeWhile (fun c => c ≠ ':')
    match cs.dropWhile (fun c => c ≠ ':') with
    | ':' :: v => some (String.mk k, String.mk (v.dropWhile (fun c => c = ' ')))
    | _ => none)

/-- `addnote` on the output unit: append conflict notes to the translator
notes, newline-joined. -/
def appendNotes (s : String) (notes : List String) : String :=
  notes.foldl (fun acc n => if acc.isEmpty then n else acc ++ "\n" ++ n) s

/-- `_merge_header` on units: parse the three header targets, run the
per-key loop, then merge the fuzzy flags with `merge_simple`. -/
def mergeHeaderU (out b l r : PoUnit) : Except PErr (PoUnit × Nat) := do
  let bd := parseHeaderString b.target.primary
  let ld := parseHeaderString l.target.primary
  let rd := parseHeaderString r.target.primary
  let (tgt, notes, c) ← mergeHeaderCore bd ld rd l.storeFilename r.storeFilename
  let fz ← mergeSimple b.fuzzy l.fuzzy r.fuzzy
  pure ({ out with
            target := .single tgt,
            transNotes := appendNotes out.transNotes notes,
            fuzzy := fz }, c)

/-! ## Translation-target merge (`_PoFileDiff._merge_target`) -/

/-- `set_translation_from(unit)`: copy target, the previous-msgid fields
when present, and the fuzzy flag. -/
def setTranslationFrom (out u : PoUnit) : PoUnit :=
  let o := { out with target := u.target }
  let o :=
    if u.prevMsgid.isEmpty then o
    else { o with prevMsgctxt := u.prevMsgctxt, prevMsgid := u.prevMsgid,
                  prevMsgidPlural := u.prevMsgidPlural }
  { o with fuzzy := u.fuzzy }

/-- Pad a plural-strings list on the right with empty strings. -/
def padTo (n : Nat) (xs : List String) : List String :=
  xs ++ List.replicate (n - xs.length) ""

/-- One `#-#-#-#-#` conflict block (the template of `_merge_target`
instantiated with both sides' labels and texts). -/
def conflictBlock (lfile lproj rfile rproj ltext rtext : String) : String :=
  "#-#-#-#-#  " ++ lfile ++ " (" ++ lproj ++ ")  #-#-#-#-#\n" ++ ltext ++ "\n" ++
  "#-#-#-#-#  " ++ rfile ++ " (" ++ rproj ++ ")  #-#-#-#-#\n" ++ rtext ++ "\n"

/-- The effect of the in-place padding loops on an input target: a
multistring has its very `strings` list extended with empty strings, while
a plain string is untouched (`[local.target]` is a fresh list). -/
def padInPlace (t : Target) (n : Nat) : Target :=
  match t with
  | .plural ss => .plural (padTo n ss)
  | .single s => .single s

/-- Result of `_merge_target`, including the final *input* targets: the
padding loops `ls.append(u"")` operate on the very `strings` list of a
multistring target, so a plural input target reflects the padding while a
plain string target (for which `[local.target]` is a fresh list) does not. -/
structure TargetMergeResult where
  out : PoUnit
  conflicts : Nat
  localTargetAfter : Target
  remoteTargetAfter : Target
  deriving DecidableEq, Repr

/-- `_PoFileDiff._merge_target`, with the effect on the input targets made
explicit. -/
def mergeTargetE (out b l r : PoUnit) : TargetMergeResult :=
  if equalTranslation b l then
    ⟨setTranslationFrom out r, 0, l.target, r.target⟩
  else if equalTranslation b r then
    ⟨setTranslationFrom out l, 0, l.target, r.target⟩
  else if equalTranslation l r then
    ⟨setTranslationFrom out l, 0, l.target, r.target⟩
  else
    let lqual : Nat := if l.isblank then 0 else if l.fuzzy then 1 else 2
    let rqual : Nat := if r.isblank then 0 else if r.fuzzy then 1 else 2
    if rqual < lqual then ⟨setTranslationFrom out l, 0, l.target, r.target⟩
    else if lqual < rqual then ⟨setTranslationFrom out r, 0, l.target, r.target⟩
    else
      let ls0 := l.target.strs
      let rs0 := r.target.strs
      let len := max ls0.length rs0.length
      let ls := padTo len ls0
      let rs := padTo len rs0
      let block := fun (lt rt : String) =>
        conflictBlock (l.storeFilename.getD "local") (l.storeProject.getD "???")
          (r.storeFilename.getD "remote") (r.storeProject.getD "???") lt rt
      let newTarget : Target :=
        if l.hasplural then .plural ((ls.zip rs).map (fun p => block p.1 p.2))
        else .single (block (ls.headD "") (rs.headD ""))
      ⟨{ out with target := newTarget, fuzzy := true }, 1,
        padInPlace l.target len, padInPlace r.target len⟩

/-- `_merge_target` as used by `_merge_unit` (output unit and count). -/
def mergeTarget (out b l r : PoUnit) : PoUnit × Nat :=
  ((mergeTargetE out b l r).out, (mergeTargetE out b l r).conflicts)

/-! ## Structural merge and the PO unit merger -/

/-- `_PoFileDiff._merge_unit`: merge locations, notes, type flags and the
obsolete flag as sets/scalars, then dispatch on `local.isheader()`. -/
def poStructMerge (b l r : PoUnit) : Except PErr (PoUnit × Nat) := do
  let locs ← mergeList b.locations l.locations r.locations
  let dev ← mergeList (b.devNotes.splitOn "\n") (l.devNotes.splitOn "\n")
    (r.devNotes.splitOn "\n")
  let trn ← mergeList (b.transNotes.splitOn "\n") (l.transNotes.splitOn "\n")
    (r.transNotes.splitOn "\n")
  let typs ← mergeList (getTypes b) (getTypes l) (getTypes r)
  let obs ← mergeSimple b.obsolete l.obsolete r.obsolete
  let out1 : PoUnit :=
    { emptyUnit l with
        locations := locs,
        devNotes := String.intercalate "\n" dev,
        transNotes := String.intercalate "\n" trn,
        typeComments := setTypes typs,
        obsolete := obs }
  if l.isheader then mergeHeaderU out1 b l r
  else pure (mergeTarget out1 b l r)

/-- `DiffUtils.merge_unit`: generic creation/deletion/resurrection shell.
`clone_unit(None)` yields `None`, and the subsequent
`u.makeobsolete()` on it raises `AttributeError` (`noneAttr`). -/
def poMergeUnit : Option PoUnit → Option PoUnit → Option PoUnit →
    Except PErr (Option PoUnit × Nat)
  | none, none, none => .error .assertEmit
  | none, some lu, none => .ok (some (cloneUnit lu), 0)
  | none, none, some ru => .ok (some (cloneUnit ru), 0)
  | none, some lu, some ru =>
    (poStructMerge (emptyUnit lu) lu ru).map (fun p => (some p.1, p.2))
  | some bu, none, none =>
    if bu.isobsolete then .ok (none, 0) else .error .noneAttr
  | some bu, some lu, none =>
    .ok (some (if bu.isobsolete then cloneUnit lu else (cloneUnit lu).makeobsolete), 0)
  | some bu, none, some ru =>
    .ok (some (if bu.isobsolete then cloneUnit ru else (cloneUnit ru).makeobsolete), 0)
  | some bu, some lu, some ru =>
    (poStructMerge bu lu ru).map (fun p => (some p.1, p.2))

/-- `DiffUtils.merge` for the PO differ. -/
def poMerge (b l r : List PoUnit) : Except PErr (List PoUnit × Nat) :=
  mergeCatalog poMergeUnit PoUnit.isheader PoUnit.isobsolete PoUnit.getid b l r

/-! ## Spec-side definitions used by the theorems -/

/-- Modelled from the spec: the quality score of §4.3.3 — blank target → 0,
fuzzy non-blank → 1, clean translation → 2. -/
def specScore (u : PoUnit) : Nat :=
  if u.isblank then 0 else if u.fuzzy then 1 else 2

/-- Modelled from the spec: the conflict-marker target of §6 — one
`#-#-#-#-#` block per plural index after padding the shorter side with
empty strings; filenames default to the literal strings `"local"` /
`"remote"` and project versions to `"???"`. -/
def specConflictTarget (l r : PoUnit) : Target :=
  let n := max l.target.strs.length r.target.strs.length
  let ls := padTo n l.target.strs
  let rs := padTo n r.target.strs
  let blk := fun (lt rt : String) =>
    conflictBlock (l.storeFilename.getD "local") (l.storeProject.getD "???")
      (r.storeFilename.getD "remote") (r.storeProject.getD "???") lt rt
  if l.hasplural then .plural ((ls.zip rs).map (fun p => blk p.1 p.2))
  else .single (blk (ls.headD "") (rs.headD ""))

/-! ## C6 — `merge_simple` -/

/-- C6: `merge_simple(b, l, r)` returns `l` when `b == r`; otherwise `r`
when `b == l`; otherwise `l` when `l == r`; and it raises an error exactly
when `b`, `l`, `r` are pairwise distinct. -/
theorem mergeSimple_cases {α : Type} [DecidableEq α] (b l r : α) :
    (b = r → mergeSimple b l r = .ok l) ∧
    (b ≠ r → b = l → mergeSimple b l r = .ok r) ∧
    (b ≠ r → b ≠ l → l = r → mergeSimple b l r = .ok l) ∧
    (mergeSimple b l r = .error PErr.valueError ↔ b ≠ l ∧ b ≠ r ∧ l ≠ r) := by
  unfold mergeSimple
  by_cases h1 : b = r <;> by_cases h2 : b = l <;> by_cases h3 : l = r <;>
    simp_all

/-- Witness for C6 at a concrete input. -/
theorem mergeSimple_cases_witness :
    (0 : Nat) = 0 ∧ mergeSimple (0 : Nat) 1 0 = .ok 1 :=
  ⟨rfl, (mergeSimple_cases 0 1 0).1 rfl⟩

/-! ## C7 — timestamp parsing of invalid/absent values -/

/-- C7 counterexample: on an absent header field (`None`), `_get_time`
does not return the epoch — matching the regex against `None` raises
`TypeError`. -/
theorem getTime_none_not_epoch :
    getTime none = Except.error PErr.typeError ∧ getTime none ≠ Except.ok 0 :=
  ⟨rfl, by simp [getTime]⟩

/-- C7 (amended): every *string* that does not match the recognised
pattern parses to the epoch (0) without failing, but an absent header
field (`None`) raises `TypeError` instead. -/
theorem getTime_invalid_string_epoch :
    (∀ s : String, parseTimeGroups s = none → getTime (some s) = Except.ok 0) ∧
    getTime none = Except.error PErr.typeError := by
  refine ⟨fun s h => ?_, rfl⟩
  simp [getTime, h]

/-- Witness for C7 (amended) on the placeholder timestamp. -/
theorem getTime_invalid_string_epoch_witness :
    parseTimeGroups "YEAR-MO-DA HO:MI+ZONE" = none ∧
    getTime (some "YEAR-MO-DA HO:MI+ZONE") = Except.ok 0 :=
  ⟨rfl, getTime_invalid_string_epoch.1 _ rfl⟩

/-! ## C8 — the UTC offset arithmetic -/

/-- C8 (code bug): on `"2013-12-11 11:30+0100"` the code adds
`int("+01")*3600 + int("+01")*60 = 3660` seconds to the civil time read as
UTC (group 7, the offset minutes, is never used and the offset is added
rather than subtracted), whereas the specified conversion subtracts
`1×3600 + 0×60 = 3600` seconds; the two results differ. -/
theorem getTime_offset_misapplied :
    getTime (some "2013-12-11 11:30+0100") = Except.ok 1386765060 ∧
    specGetTime (some "2013-12-11 11:30+0100") = Except.ok 1386757800 ∧
    (1386765060 : Int) ≠ 1386757800 :=
  ⟨rfl, rfl, by decide⟩

/-! ## C2 — convergence `merge(b, x, x) = x` -/

/-- C2 (code bug): when the base catalog holds a live unit absent from
`x`, `merge(b, x, x)` does not complete: `merge_unit(base, None, None)`
takes the deletion branch, `clone_unit(None)` yields `None`, and
`None.makeobsolete()` raises `AttributeError` — instead of returning `x`
with 0 conflicts. -/
theorem poMerge_live_base_only_crashes :
    poMerge [{ source := Target.single "foo", target := Target.single "FOO" }] [] []
      = Except.error PErr.noneAttr := rfl

/-! ## C9 — the two-way matcher -/

/-- C9 (code bug): the main loop of `SetMatcher2.match` runs only while
*both* walkers are valid, so with `old = [0]` and `new = [0, 1]` the loop
stops once `old` is exhausted, key `1` is never emitted, and the terminal
assertion `assert not nw.valid()` fails. -/
theorem setMatcher2_assert_fails :
    match2 (fun k : Nat => k) (fun _ => false) [0] [0, 1]
      = Except.error PErr.assertWalker := rfl

/-! ## C10 — mutation of input units by `_merge_target` -/

/-- C10 counterexample: in the tied-conflict case the padding loop
`ls.append(u"")` extends the `strings` list of the *input* local
multistring target in place — after the call the local unit's target has
gained an empty plural string. -/
theorem mergeTarget_mutates_plural_input :
    (mergeTargetE {}
        { source := Target.plural ["s", "p"], target := Target.single "z", fuzzy := true }
        { source := Target.plural ["s", "p"], target := Target.plural ["a"], fuzzy := true }
        { source := Target.plural ["s", "p"], target := Target.plural ["b", "c"],
          fuzzy := true }).localTargetAfter = Target.plural ["a", ""] ∧
    Target.plural ["a", ""] ≠ Target.plural ["a"] :=
  ⟨by decide, by decide⟩

theorem padTo_length_self (xs : List String) : padTo xs.length xs = xs := by
  simp [padTo]

theorem padInPlace_self (t : Target) (n : Nat) (hn : n = t.strs.length) :
    padInPlace t n = t := by
  cases t with
  | single s => rfl
  | plural ss => simp [padInPlace, Target.strs, hn, padTo_length_self]

/-- C10 (amended): the matcher and the unit merger leave input units
unchanged *except* that, in the tied-conflict branch, the side whose
target is a multistring with fewer plural strings than the other side has
its `strings` list padded in place with empty strings.  In particular
whenever the two targets have the same number of strings (e.g. both are
plain strings), both input targets are unchanged by the call. -/
theorem mergeTarget_preserves_inputs_of_eq_len (out b l r : PoUnit)
    (h : l.target.strs.length = r.target.strs.length) :
    (mergeTargetE out b l r).localTargetAfter = l.target ∧
    (mergeTargetE out b l r).remoteTargetAfter = r.target := by
  have hpl : padInPlace l.target (max l.target.strs.length r.target.strs.length) = l.target :=
    padInPlace_self _ _ (by rw [h, Nat.max_self])
  have hpr : padInPlace r.target (max l.target.strs.length r.target.strs.length) = r.target :=
    padInPlace_self _ _ (by rw [h, Nat.max_self])
  unfold mergeTargetE
  split_ifs <;> simp [hpl, hpr]

/-- Witness for C10 (amended): plain-string targets are never mutated. -/
theorem mergeTarget_preserves_inputs_witness :
    (Target.single "baz").strs.length = (Target.single "qyzzy").strs.length ∧
    (mergeTargetE {} { source := Target.single "foo", target := Target.single "bar" }
        { source := Target.single "foo", target := Target.single "baz" }
        { source := Target.single "foo", target := Target.single "qyzzy" }).localTargetAfter
      = Target.single "baz" :=
  ⟨rfl, (mergeTarget_preserves_inputs_of_eq_len
    {} { source := Target.single "foo", target := Target.single "bar" }
    { source := Target.single "foo", target := Target.single "baz" }
    { source := Target.single "foo", target := Target.single "qyzzy" } rfl).1⟩

/-! ## C3 — the true-conflict branch of `_merge_target` -/

/-- C3: on a true conflict (pairwise non-equivalent translations) the
target merge adopts the strictly higher-scored side with 0 conflicts
(blank → 0, fuzzy non-blank → 1, clean → 2); on a tie it sets the output
target to the `#-#-#-#-#` conflict-marker combination of both sides
(filenames defaulting to `"local"`/`"remote"`, project versions to
`"???"`), marks the output fuzzy, and returns exactly 1 conflict. -/
theorem mergeTarget_true_conflict (out b l r : PoUnit)
    (h1 : equalTranslation b l = false) (h2 : equalTranslation b r = false)
    (h3 : equalTranslation l r = false) :
    (specScore r < specScore l →
      mergeTargetE out b l r = ⟨setTranslationFrom out l, 0, l.target, r.target⟩) ∧
    (specScore l < specScore r →
      mergeTargetE out b l r = ⟨setTranslationFrom out r, 0, l.target, r.target⟩) ∧
    (specScore l = specScore r →
      (mergeTargetE out b l r).out.target = specConflictTarget l r ∧
      (mergeTargetE out b l r).out.fuzzy = true ∧
      (mergeTargetE out b l r).conflicts = 1) := by
  have hsl : specScore l = if l.isblank then 0 else if l.fuzzy then 1 else 2 := rfl
  have hsr : specScore r = if r.isblank then 0 else if r.fuzzy then 1 else 2 := rfl
  refine ⟨fun hq => ?_, fun hq => ?_, fun hq => ?_⟩
  · rw [hsl, hsr] at hq
    simp only [mergeTargetE, h1, h2, h3, Bool.false_eq_true, if_false]
    rw [if_pos hq]
  · rw [hsl, hsr] at hq
    simp only [mergeTargetE, h1, h2, h3, Bool.false_eq_true, if_false]
    rw [if_neg (by omega), if_pos hq]
  · rw [hsl, hsr] at hq
    have e : mergeTargetE out b l r =
        ⟨{ out with target := specConflictTarget l r, fuzzy := true }, 1,
          padInPlace l.target (max l.target.strs.length r.target.strs.length),
          padInPlace r.target (max l.target.strs.length r.target.strs.length)⟩ := by
      simp only [mergeTargetE, h1, h2, h3, Bool.false_eq_true, if_false]
      rw [if_neg (by omega), if_neg (by omega)]
      rfl
    rw [e]
    exact ⟨rfl, rfl, rfl⟩

/-- Witness for C3: a tied clean-vs-clean conflict produces the marker. -/
theorem mergeTarget_true_conflict_witness :
    equalTranslation { source := Target.single "foo", target := Target.single "bar" }
      { source := Target.single "foo", target := Target.single "baz" } = false ∧
    (mergeTargetE {} { source := Target.single "foo", target := Target.single "bar" }
        { source := Target.single "foo", target := Target.single "baz" }
        { source := Target.single "foo", target := Target.single "qyzzy" }).conflicts = 1 :=
  ⟨rfl, ((mergeTarget_true_conflict {}
    { source := Target.single "foo", target := Target.single "bar" }
    { source := Target.single "foo", target := Target.single "baz" }
    { source := Target.single "foo", target := Target.single "qyzzy" }
    rfl rfl rfl).2.2 rfl).2.2⟩

/-! ## C5 — the band invariant of `DiffUtils.merge` -/

theorem except_bind_ok {ε α β : Type} (a : α) (f : α → Except ε β) :
    (Except.ok a >>= f) = f a := rfl

theorem except_bind_error {ε α β : Type} (e : ε) (f : α → Except ε β) :
    ((Except.error e : Except ε α) >>= f) = Except.error e := rfl

theorem mergeStep_fold {U : Type}
    (mu : Option U → Option U → Option U → Except PErr (Option U × Nat))
    (isH isO : U → Bool) :
    ∀ (ts : List (T3 U)) (hs ns os : List U) (c : Nat) (res : List U × List U × List U × Nat),
      ts.foldlM (mergeStep mu isH isO) (hs, ns, os, c) = .ok res →
      ∃ us c', mergedUnits mu ts = .ok (us, c') ∧
        res = (hs ++ us.filter isH,
               ns ++ us.filter (fun u => !isH u && !isO u),
               os ++ us.filter (fun u => !isH u && isO u),
               c + c') := by
  intro ts
  induction ts with
  | nil =>
    intro hs ns os c res h
    simp only [List.foldlM_nil] at h
    cases h
    exact ⟨[], 0, rfl, by simp⟩
  | cons t ts ih =>
    intro hs ns os c res h
    rw [List.foldlM_cons] at h
    cases hmu : mu t.1 t.2.1 t.2.2 with
    | error e =>
      rw [show mergeStep mu isH isO (hs, ns, os, c) t = .error e by
        simp [mergeStep, hmu, except_bind_error], except_bind_error] at h
      cases h
    | ok p =>
      obtain ⟨u?, cu⟩ := p
      cases u? with
      | none =>
        rw [show mergeStep mu isH isO (hs, ns, os, c) t = .ok (hs, ns, os, c + cu) by
          simp [mergeStep, hmu, except_bind_ok], except_bind_ok] at h
        obtain ⟨us, c', hm, hres⟩ := ih _ _ _ _ _ h
        refine ⟨us, cu + c', ?_, ?_⟩
        · simp [mergedUnits, hmu, except_bind_ok, hm]
        · rw [hres]; simp; omega
      | some u =>
        by_cases h1 : isH u
        · rw [show mergeStep mu isH isO (hs, ns, os, c) t = .ok (hs ++ [u], ns, os, c + cu) by
            simp [mergeStep, hmu, except_bind_ok, h1], except_bind_ok] at h
          obtain ⟨us, c', hm, hres⟩ := ih _ _ _ _ _ h
          refine ⟨u :: us, cu + c', ?_, ?_⟩
          · simp [mergedUnits, hmu, except_bind_ok, hm]
          · rw [hres]
            simp [List.filter, h1]
            omega
        · by_cases h2 : isO u
          · rw [show mergeStep mu isH isO (hs, ns, os, c) t = .ok (hs, ns, os ++ [u], c + cu) by
              simp [mergeStep, hmu, except_bind_ok, h1, h2], except_bind_ok] at h
            obtain ⟨us, c', hm, hres⟩ := ih _ _ _ _ _ h
            refine ⟨u :: us, cu + c', ?_, ?_⟩
            · simp [mergedUnits, hmu, except_bind_ok, hm]
            · rw [hres]
              simp [List.filter, h1, h2]
              omega
          · rw [show mergeStep mu isH isO (hs, ns, os, c) t = .ok (hs, ns ++ [u], os, c + cu) by
              simp [mergeStep, hmu, except_bind_ok, h1, h2], except_bind_ok] at h
            obtain ⟨us, c', hm, hres⟩ := ih _ _ _ _ _ h
            refine ⟨u :: us, cu + c', ?_, ?_⟩
            · simp [mergedUnits, hmu, except_bind_ok, hm]
            · rw [hres]
              simp [List.filter, h1, h2]
              omega

/-- C5: in every catalog returned by `merge`, the output is exactly the
header units, then the normal (live, non-obsolete) units, then the
obsolete units, each band in the order in which the matcher emitted the
corresponding triples (`us` is the list of merged units in matcher order),
and the conflict count is the sum over the matcher-ordered triples. -/
theorem merge_band_invariant {U K : Type} [DecidableEq K]
    (mu : Option U → Option U → Option U → Except PErr (Option U × Nat))
    (isH isO : U → Bool) (kf : U → K) (b l r : List U)
    (ts : List (T3 U)) (us out : List U) (c c' : Nat)
    (hm : match3 kf isO b l r = .ok ts)
    (hu : mergedUnits mu ts = .ok (us, c))
    (h : mergeCatalog mu isH isO kf b l r = .ok (out, c')) :
    c' = c ∧
    out = us.filter isH ++ us.filter (fun u => !isH u && !isO u)
          ++ us.filter (fun u => !isH u && isO u) := by
  unfold mergeCatalog at h
  rw [hm, except_bind_ok] at h
  cases hf : ts.foldlM (mergeStep mu isH isO) ([], [], [], 0) with
  | error e => rw [hf, except_bind_error] at h; cases h
  | ok st =>
    obtain ⟨hs, ns, os, c0⟩ := st
    rw [hf, except_bind_ok] at h
    cases h
    obtain ⟨us', c'', hmu', hres⟩ := mergeStep_fold mu isH isO ts [] [] [] 0 _ hf
    rw [hu] at hmu'
    cases hmu'
    cases hres
    exact ⟨by omega, by simp⟩

/-- Witness for C5 at a concrete differ and catalogs. -/
theorem merge_band_invariant_witness :
    match3 (fun k : Nat => k) (fun _ => false) [0] [1] [2]
      = Except.ok [(none, none, some 2), (none, some 1, none), (some 0, none, none)] ∧
    mergeCatalog (fun _ _ _ => Except.ok (none, 0)) (fun _ => false) (fun _ => false)
      (fun k : Nat => k) [0] [1] [2] = Except.ok ([], 0) ∧
    (0 : Nat) = 0 := by
  have hm : match3 (fun k : Nat => k) (fun _ => false) [0] [1] [2]
      = Except.ok [(none, none, some 2), (none, some 1, none), (some 0, none, none)] := by rfl
  have hu : mergedUnits (fun _ _ _ => Except.ok (none, 0))
      [((none : Option Nat), (none : Option Nat), some 2), (none, some 1, none),
        (some 0, none, none)] = Except.ok ([], 0) := by rfl
  have hc : mergeCatalog (fun _ _ _ => Except.ok (none, 0)) (fun _ => false) (fun _ => false)
      (fun k : Nat => k) [0] [1] [2] = Except.ok ([], 0) := by rfl
  exact ⟨hm, hc,
    (merge_band_invariant (fun _ _ _ => Except.ok (none, 0)) (fun _ => false) (fun _ => false)
      (fun k : Nat => k) [0] [1] [2]
      [(none, none, some 2), (none, some 1, none), (some 0, none, none)] [] [] 0 0
      hm hu hc).1⟩

/-! ## C4 — the header merge conflict count -/

/-- A header key whose base, local and remote values (with `None` for an
absent key) are pairwise distinct. -/
def headerConflict (bd ld rd : List (String × String)) (k : String) : Prop :=
  dGet bd k ≠ dGet ld k ∧ dGet bd k ≠ dGet rd k ∧ dGet ld k ≠ dGet rd k

theorem resolveHeaderKey_spec (bd ld rd : List (String × String)) (lfile rfile : Option String)
    (k : String) (res : Option String) (ns : List String) (confl : Bool)
    (h : resolveHeaderKey bd ld rd lfile rfile k = .ok (res, ns, confl)) :
    (confl = true ↔ headerConflict bd ld rd k) ∧
    (headerConflict bd ld rd k →
      ∃ tl tr, getTime (dGet ld (fieldFor k)) = .ok tl ∧
        getTime (dGet rd (fieldFor k)) = .ok tr ∧
        res = if tr ≤ tl then dGet ld k else dGet rd k) := by
  simp only [resolveHeaderKey] at h
  by_cases h1 : dGet bd k = dGet ld k
  · rw [if_pos h1] at h
    cases h
    refine ⟨by simp [headerConflict, h1], fun hc => absurd h1 hc.1⟩
  · rw [if_neg h1] at h
    by_cases h2 : dGet bd k = dGet rd k ∨ dGet ld k = dGet rd k
    · rw [if_pos h2] at h
      cases h
      have hnc : ¬headerConflict bd ld rd k := fun hc => by
        rcases h2 with h2 | h2
        · exact hc.2.1 h2
        · exact hc.2.2 h2
      exact ⟨by simp [hnc], fun hc => absurd hc hnc⟩
    · rw [if_neg h2] at h
      push_neg at h2
      simp only [headerNewer] at h
      cases hgl : getTime (dGet ld (fieldFor k)) with
      | error e => rw [hgl, except_bind_error, except_bind_error] at h; cases h
      | ok tl =>
        cases hgr : getTime (dGet rd (fieldFor k)) with
        | error e =>
          rw [hgl, except_bind_ok, hgr, except_bind_error, except_bind_error] at h
          cases h
        | ok tr =>
          rw [hgl, except_bind_ok, hgr, except_bind_ok] at h
          cases h
          refine ⟨by simp [headerConflict, h1, h2.1, h2.2], fun _ => ⟨tl, tr, rfl, rfl, ?_⟩⟩
          by_cases hle : tr ≤ tl <;> simp [hle]

theorem mergeHeaderFold_count (bd ld rd : List (String × String)) (lfile rfile : Option String) :
    ∀ (ks : List String) (t0 : String) (n0 : List String) (c0 : Nat) (tgt : String)
      (notes : List String) (c : Nat),
      ks.foldlM (mergeHeaderStep bd ld rd lfile rfile) (t0, n0, c0) = .ok (tgt, notes, c) →
      (c = c0 ∨ c = 1) ∧ (c = 1 ↔ c0 = 1 ∨ ∃ k ∈ ks, headerConflict bd ld rd k) := by
  intro ks
  induction ks with
  | nil =>
    intro t0 n0 c0 tgt notes c h
    simp only [List.foldlM_nil] at h
    cases h
    simp
  | cons k ks ih =>
    intro t0 n0 c0 tgt notes c h
    rw [List.foldlM_cons] at h
    cases hrk : resolveHeaderKey bd ld rd lfile rfile k with
    | error e =>
      rw [show mergeHeaderStep bd ld rd lfile rfile (t0, n0, c0) k = .error e from by
        simp [mergeHeaderStep, hrk, except_bind_error], except_bind_error] at h
      cases h
    | ok p =>
      obtain ⟨res, ns, confl⟩ := p
      rw [show mergeHeaderStep bd ld rd lfile rfile (t0, n0, c0) k = .ok
          ((match res with | some v => t0 ++ k ++ ": " ++ v ++ "\n" | none => t0),
           n0 ++ ns, if confl then 1 else c0) from by
        simp only [mergeHeaderStep, hrk, except_bind_ok]
        cases res <;> rfl, except_bind_ok] at h
      have hiff := (resolveHeaderKey_spec bd ld rd lfile rfile k res ns confl hrk).1
      obtain ⟨hd, hi⟩ := ih _ _ _ _ _ _ h
      cases confl with
      | true =>
        rw [if_pos rfl] at hd hi
        have hck : headerConflict bd ld rd k := hiff.mp rfl
        constructor
        · right; rcases hd with hd | hd <;> exact hd
        · constructor
          · intro _
            exact Or.inr ⟨k, List.mem_cons_self _ _, hck⟩
          · intro _
            rw [hi]
            exact Or.inl rfl
      | false =>
        rw [if_neg (by simp)] at hd hi
        have hnck : ¬headerConflict bd ld rd k := fun hc => by simpa using hiff.mpr hc
        refine ⟨hd, ?_⟩
        rw [hi]
        constructor
        · rintro (h' | ⟨k', hk', hc'⟩)
          · exact Or.inl h'
          · exact Or.inr ⟨k', List.mem_cons_of_mem _ hk', hc'⟩
        · rintro (h' | ⟨k', hk', hc'⟩)
          · exact Or.inl h'
          · rcases List.mem_cons.mp hk' with rfl | hk'
            · exact absurd hc' hnck
            · exact Or.inr ⟨k', hk', hc'⟩

/-- C4: for every header triple, the header merge's conflict count is at
most 1; it is exactly 1 iff at least one key of the merged key list
genuinely conflicts (its base, local and remote values are pairwise
distinct) — never the number of conflicting keys; and at every conflicting
key the adopted value is local's iff local is not older than remote by the
side-specific timestamp field (`POT-Creation-Date` for template headers,
`PO-Revision-Date` otherwise). -/
theorem mergeHeader_conflict_count (bd ld rd : List (String × String))
    (lfile rfile : Option String) (ks : List String) (tgt : String)
    (notes : List String) (c : Nat)
    (hk : mergeList (bd.map Prod.fst) (ld.map Prod.fst) (rd.map Prod.fst) = .ok ks)
    (h : mergeHeaderCore bd ld rd lfile rfile = .ok (tgt, notes, c)) :
    c ≤ 1 ∧
    (c = 1 ↔ ∃ k ∈ ks, headerConflict bd ld rd k) ∧
    (∀ k ∈ ks, headerConflict bd ld rd k →
      ∀ res ns confl, resolveHeaderKey bd ld rd lfile rfile k = .ok (res, ns, confl) →
        confl = true ∧
        ∃ tl tr, getTime (dGet ld (fieldFor k)) = .ok tl ∧
          getTime (dGet rd (fieldFor k)) = .ok tr ∧
          res = if tr ≤ tl then dGet ld k else dGet rd k) := by
  unfold mergeHeaderCore at h
  rw [hk, except_bind_ok] at h
  obtain ⟨hd, hi⟩ := mergeHeaderFold_count bd ld rd lfile rfile ks "" [] 0 tgt notes c h
  refine ⟨by omega, ?_, ?_⟩
  · rw [hi]; simp
  · intro k _ hc res ns confl hrk
    obtain ⟨hiff, hwin⟩ := resolveHeaderKey_spec bd ld rd lfile rfile k res ns confl hrk
    exact ⟨hiff.mpr hc, hwin hc⟩

/-- Witness for C4: a genuine conflict on key `A` with equal revision
dates yields conflict count exactly 1, with local winning the tie. -/
theorem mergeHeader_conflict_count_witness :
    mergeList ([("A", "1"), ("PO-Revision-Date", "x")].map Prod.fst)
        ([("A", "2"), ("PO-Revision-Date", "x")].map Prod.fst)
        ([("A", "3"), ("PO-Revision-Date", "x")].map Prod.fst)
      = Except.ok ["A", "PO-Revision-Date"] ∧
    mergeHeaderCore [("A", "1"), ("PO-Revision-Date", "x")]
        [("A", "2"), ("PO-Revision-Date", "x")] [("A", "3"), ("PO-Revision-Date", "x")]
        none none
      = Except.ok ("A: 2\nPO-Revision-Date: x\n", ["(conflict) remote (???): A: 3"], 1) ∧
    (1 : Nat) ≤ 1 :=
  ⟨rfl, rfl,
    (mergeHeader_conflict_count [("A", "1"), ("PO-Revision-Date", "x")]
      [("A", "2"), ("PO-Revision-Date", "x")] [("A", "3"), ("PO-Revision-Date", "x")]
      none none ["A", "PO-Revision-Date"] "A: 2\nPO-Revision-Date: x\n"
      ["(conflict) remote (???): A: 3"] 1 rfl rfl).1⟩

/-! ## C1 — correctness of the three-way matcher

We prove that under the key-identity precondition `SetMatcher3.match`
terminates with all assertions passing, and the emitted triples cover
every key of the three inputs exactly once, each triple having at least
one present component and all present components sharing its key. -/

theorem lookupLast_aux {U K : Type} [DecidableEq K] (kf : U → K) (k : K) :
    ∀ (xs : List U) (acc : Option U) (u : U),
      xs.foldl (fun acc u => if kf u = k then some u else acc) acc = some u →
      (u ∈ xs ∧ kf u = k) ∨ acc = some u := by
  intro xs
  induction xs with
  | nil => intro acc u h; exact Or.inr h
  | cons x xs ih =>
    intro acc u h
    rw [List.foldl_cons] at h
    rcases ih _ u h with h' | h'
    · exact Or.inl ⟨List.mem_cons_of_mem _ h'.1, h'.2⟩
    · by_cases hx : kf x = k
      · rw [if_pos hx] at h'
        cases h'
        exact Or.inl ⟨List.mem_cons_self _ _, hx⟩
      · rw [if_neg hx] at h'
        exact Or.inr h'

/-- A slot field holds a unit of the corresponding input with the slot's
key. -/
theorem lookupLast_mem_key {U K : Type} [DecidableEq K] (kf : U → K)
    (xs : List U) (k : K) (u : U) (h : lookupLast kf xs k = some u) :
    u ∈ xs ∧ kf u = k := by
  rcases lookupLast_aux kf k xs none u h with h' | h'
  · exact h'
  · cases h'

theorem lookup_foldl_isSome {U K : Type} [DecidableEq K] (kf : U → K) (k : K) :
    ∀ (xs : List U) (acc : Option U),
      (acc.isSome ∨ ∃ u ∈ xs, kf u = k) →
      (xs.foldl (fun acc u => if kf u = k then some u else acc) acc).isSome := by
  intro xs
  induction xs with
  | nil =>
    intro acc h
    rcases h with h | ⟨u, hu, _⟩
    · exact h
    · cases hu
  | cons x xs ih =>
    intro acc h
    rw [List.foldl_cons]
    apply ih
    by_cases hx : kf x = k
    · rw [if_pos hx]; exact Or.inl rfl
    · rw [if_neg hx]
      rcases h with h | ⟨u, hu, hk⟩
      · exact Or.inl h
      · rcases List.mem_cons.mp hu with rfl | hu
        · exact absurd hk hx
        · exact Or.inr ⟨u, hu, hk⟩

/-- `_fill_item_map` fills the slot field of every key present in the
input. -/
theorem lookupLast_isSome_of_mem {U K : Type} [DecidableEq K] (kf : U → K)
    {xs : List U} {u : U} (h : u ∈ xs) : (lookupLast kf xs (kf u)).isSome :=
  lookup_foldl_isSome kf (kf u) xs none (Or.inr ⟨u, h, rfl⟩)

/-- The loop invariant of the main phase: the consumed prefixes of local
and remote are all done, `done` is duplicate-free and within the key set,
the output mirrors `done`, and neither walker head is already done. -/
def LoopInv {U K : Type} [DecidableEq K] (kf : U → K) (b l r ls rs : List U)
    (done : List K) (out : List (T3 U)) : Prop :=
  (∃ lp, l = lp ++ ls ∧ ∀ u ∈ lp, kf u ∈ done) ∧
  (∃ rp, r = rp ++ rs ∧ ∀ u ∈ rp, kf u ∈ done) ∧
  done.Nodup ∧
  (∀ k ∈ done, k ∈ (b ++ l ++ r).map kf) ∧
  out = done.reverse.map (slotT3 kf b l r) ∧
  (∀ lu ls', ls = lu :: ls' → kf lu ∉ done) ∧
  (∀ ru rs', rs = ru :: rs' → kf ru ∉ done)

/-- Postcondition of the main phase: success, with a `done` set that is
duplicate-free, covers both heads' inputs, extends the input `done`, and
stays within the key set; the output is the slots of `done` in emission
order. -/
def LoopGoal {U K : Type} [DecidableEq K] (kf : U → K) (b l r : List U)
    (res : Except PErr (List (T3 U) × List K)) (done : List K) : Prop :=
  ∃ done', res = Except.ok (done'.reverse.map (slotT3 kf b l r), done') ∧
    done'.Nodup ∧
    (∀ u ∈ l, kf u ∈ done') ∧ (∀ u ∈ r, kf u ∈ done') ∧
    (∀ k ∈ done, k ∈ done') ∧
    (∀ k ∈ done', k ∈ (b ++ l ++ r).map kf)

theorem LoopGoal_mono {U K : Type} [DecidableEq K] {kf : U → K} {b l r : List U}
    {res : Except PErr (List (T3 U) × List K)} {k : K} {done : List K}
    (h : LoopGoal kf b l r res (k :: done)) : LoopGoal kf b l r res done := by
  obtain ⟨d, h1, h2, h3, h4, h5, h6⟩ := h
  exact ⟨d, h1, h2, h3, h4, fun k' hk' => h5 k' (List.mem_cons_of_mem _ hk'), h6⟩

theorem sweep_keeps_consumed {U K : Type} [DecidableEq K] (kf : U → K) (done' : List K)
    (full pre xs : List U) (hfull : full = pre ++ xs) (hpre : ∀ u ∈ pre, kf u ∈ done') :
    ∃ pre', full = pre' ++ xs.dropWhile (fun u => decide (kf u ∈ done')) ∧
      ∀ u ∈ pre', kf u ∈ done' := by
  obtain ⟨t, ht, hall⟩ := dropWhile_decomp (fun u => decide (kf u ∈ done')) xs
  refine ⟨pre ++ t, ?_, ?_⟩
  · conv_lhs => rw [hfull, ht]
    rw [List.append_assoc]
  · intro u hu
    rcases List.mem_append.mp hu with hu | hu
    · exact hpre u hu
    · exact of_decide_eq_true (hall u hu)

theorem sweep_head_not_done {U K : Type} [DecidableEq K] (kf : U → K) (done' : List K)
    (xs : List U) (u : U) (ys : List U)
    (h : xs.dropWhile (fun u => decide (kf u ∈ done')) = u :: ys) : kf u ∉ done' :=
  of_decide_eq_false (dropWhile_cons_false (p := fun u => decide (kf u ∈ done')) h)

/-- Emitting the slot of a fresh key `k` and sweeping both walkers
re-establishes the loop invariant. -/
theorem LoopInv_emit {U K : Type} [DecidableEq K] (kf : U → K) (b l r : List U)
    (ls₁ rs₁ : List U) (done : List K) (out : List (T3 U)) (k : K)
    (hl : ∃ lp, l = lp ++ ls₁ ∧ ∀ u ∈ lp, kf u ∈ k :: done)
    (hr : ∃ rp, r = rp ++ rs₁ ∧ ∀ u ∈ rp, kf u ∈ k :: done)
    (hnd : done.Nodup) (hk : k ∉ done) (hkmem : k ∈ (b ++ l ++ r).map kf)
    (hsub : ∀ k' ∈ done, k' ∈ (b ++ l ++ r).map kf)
    (hout : out = done.reverse.map (slotT3 kf b l r)) :
    LoopInv kf b l r
      (ls₁.dropWhile (fun u => decide (kf u ∈ k :: done)))
      (rs₁.dropWhile (fun u => decide (kf u ∈ k :: done)))
      (k :: done) (out ++ [slotT3 kf b l r k]) := by
  obtain ⟨lp, hlp, hlpall⟩ := hl
  obtain ⟨rp, hrp, hrpall⟩ := hr
  refine ⟨sweep_keeps_consumed kf (k :: done) l lp ls₁ hlp hlpall,
    sweep_keeps_consumed kf (k :: done) r rp rs₁ hrp hrpall,
    List.nodup_cons.mpr ⟨hk, hnd⟩,
    ?_, ?_, ?_, ?_⟩
  · intro k' hk'
    rcases List.mem_cons.mp hk' with rfl | hk'
    · exact hkmem
    · exact hsub k' hk'
  · rw [hout, List.reverse_cons, List.map_append]
    rfl
  · intro lu ls' hls
    exact sweep_head_not_done kf (k :: done) ls₁ lu ls' hls
  · intro ru rs' hrs
    exact sweep_head_not_done kf (k :: done) rs₁ ru rs' hrs

theorem match3Loop_eq_nil {U K : Type} [DecidableEq K] (kf : U → K) (df : U → Bool)
    (b l r : List U) (fuel : Nat) (done : List K) (out : List (T3 U)) :
    match3Loop kf df b l r (fuel + 1) [] [] done out = .ok (out, done) := rfl

theorem match3Loop_eq_remote {U K : Type} [DecidableEq K] (kf : U → K) (df : U → Bool)
    (b l r : List U) (fuel : Nat) (ls : List U) (ru : U) (rs' : List U)
    (done : List K) (out : List (T3 U))
    (hNL : notLocal3 kf df l r (kf ru) = true) (hkr : kf ru ∉ done) :
    match3Loop kf df b l r (fuel + 1) ls (ru :: rs') done out =
      match3Loop kf df b l r fuel
        (ls.dropWhile (fun u => decide (kf u ∈ kf ru :: done)))
        (rs'.dropWhile (fun u => decide (kf u ∈ kf ru :: done)))
        (kf ru :: done) (out ++ [slotT3 kf b l r (kf ru)]) := by
  cases ls <;> simp [match3Loop, hNL, hkr]

theorem match3Loop_eq_local {U K : Type} [DecidableEq K] (kf : U → K) (df : U → Bool)
    (b l r : List U) (fuel : Nat) (lu : U) (ls' : List U) (ru : U) (rs' : List U)
    (done : List K) (out : List (T3 U))
    (hNL : notLocal3 kf df l r (kf ru) = false) (hkl : kf lu ∉ done) :
    match3Loop kf df b l r (fuel + 1) (lu :: ls') (ru :: rs') done out =
      match3Loop kf df b l r fuel
        (ls'.dropWhile (fun u => decide (kf u ∈ kf lu :: done)))
        ((ru :: rs').dropWhile (fun u => decide (kf u ∈ kf lu :: done)))
        (kf lu :: done) (out ++ [slotT3 kf b l r (kf lu)]) := by
  simp [match3Loop, hNL, hkl]

theorem match3Loop_eq_local_nil {U K : Type} [DecidableEq K] (kf : U → K) (df : U → Bool)
    (b l r : List U) (fuel : Nat) (lu : U) (ls' : List U)
    (done : List K) (out : List (T3 U)) (hkl : kf lu ∉ done) :
    match3Loop kf df b l r (fuel + 1) (lu :: ls') [] done out =
      match3Loop kf df b l r fuel
        (ls'.dropWhile (fun u => decide (kf u ∈ kf lu :: done)))
        []
        (kf lu :: done) (out ++ [slotT3 kf b l r (kf lu)]) := by
  simp [match3Loop, hkl]

/-- Main-phase correctness: from any state satisfying the loop invariant
with enough fuel, the loop succeeds and its `done` set covers the local
and remote inputs. -/
theorem match3Loop_ok {U K : Type} [DecidableEq K] (kf : U → K) (df : U → Bool)
    (b l r : List U) :
    ∀ (fuel : Nat) (ls rs : List U) (done : List K) (out : List (T3 U)),
      ls.length + rs.length < fuel →
      LoopInv kf b l r ls rs done out →
      LoopGoal kf b l r (match3Loop kf df b l r fuel ls rs done out) done := by
  intro fuel
  induction fuel with
  | zero => intro ls rs done out hfuel _; exact absurd hfuel (Nat.not_lt_zero _)
  | succ fuel ih =>
    intro ls rs done out hfuel hinv
    obtain ⟨hl, hr, hnd, hsub, hout, hheadL, hheadR⟩ := hinv
    rcases hls : ls with _ | ⟨lu, ls'⟩ <;> rcases hrs : rs with _ | ⟨ru, rs'⟩
    · -- both exhausted: the loop returns
      rw [match3Loop_eq_nil]
      refine ⟨done, by rw [hout], hnd, ?_, ?_, fun k hk => hk, hsub⟩
      · obtain ⟨lp, hlp, hlpall⟩ := hl
        rw [hls, List.append_nil] at hlp
        exact fun u hu => hlpall u (hlp ▸ hu)
      · obtain ⟨rp, hrp, hrpall⟩ := hr
        rw [hrs, List.append_nil] at hrp
        exact fun u hu => hrpall u (hrp ▸ hu)
    · -- local exhausted, remote head ru
      subst hls; subst hrs
      have hkr : kf ru ∉ done := hheadR ru rs' rfl
      cases hNL : notLocal3 kf df l r (kf ru) with
      | false =>
        -- impossible: every unit of l is done, yet the slot of ru has a
        -- local unit whose key equals kf ru, which is not done
        exfalso
        cases hLK : lookupLast kf l (kf ru) with
        | none => rw [notLocal3, hLK] at hNL; cases hNL
        | some lu₀ =>
          obtain ⟨hmem, hkey⟩ := lookupLast_mem_key kf l (kf ru) lu₀ hLK
          obtain ⟨lp, hlp, hlpall⟩ := hl
          rw [List.append_nil] at hlp
          exact hkr (hkey ▸ hlpall lu₀ (hlp ▸ hmem))
      | true =>
        rw [match3Loop_eq_remote kf df b l r fuel [] ru rs' done out hNL hkr]
        have h1 := dropWhile_length_le (fun u => decide (kf u ∈ kf ru :: done)) rs'
        obtain ⟨rp, hrp, hrpall⟩ := hr
        have hrmem : ru ∈ r := by rw [hrp]; exact List.mem_append_right _ (List.mem_cons_self _ _)
        apply LoopGoal_mono
        apply ih
        · simp only [List.length_cons] at hfuel
          simp only [List.length_nil, List.dropWhile_nil]
          omega
        · refine LoopInv_emit kf b l r [] rs' done out (kf ru) ?_ ?_ hnd hkr ?_ hsub hout
          · obtain ⟨lp, hlp, hlpall⟩ := hl
            exact ⟨lp, hlp, fun u hu => List.mem_cons_of_mem _ (hlpall u hu)⟩
          · refine ⟨rp ++ [ru], ?_, ?_⟩
            · rw [List.append_assoc, List.singleton_append, hrp]
            · intro u hu
              rcases List.mem_append.mp hu with hu | hu
              · exact List.mem_cons_of_mem _ (hrpall u hu)
              · rcases List.mem_singleton.mp hu with rfl
                exact List.mem_cons_self _ _
          · exact List.mem_map_of_mem kf (List.mem_append_right _ hrmem)
    · -- remote exhausted, local head lu
      subst hls; subst hrs
      have hkl : kf lu ∉ done := hheadL lu ls' rfl
      rw [match3Loop_eq_local_nil kf df b l r fuel lu ls' done out hkl]
      have h1 := dropWhile_length_le (fun u => decide (kf u ∈ kf lu :: done)) ls'
      obtain ⟨lp, hlp, hlpall⟩ := hl
      have hlmem : lu ∈ l := by rw [hlp]; exact List.mem_append_right _ (List.mem_cons_self _ _)
      apply LoopGoal_mono
      apply ih
      · simp only [List.length_cons] at hfuel
        simp only [List.length_nil]
        omega
      · refine LoopInv_emit kf b l r ls' [] done out (kf lu) ?_ ?_ hnd hkl ?_ hsub hout
        · refine ⟨lp ++ [lu], ?_, ?_⟩
          · rw [List.append_assoc, List.singleton_append, hlp]
          · intro u hu
            rcases List.mem_append.mp hu with hu | hu
            · exact List.mem_cons_of_mem _ (hlpall u hu)
            · rcases List.mem_singleton.mp hu with rfl
              exact List.mem_cons_self _ _
        · obtain ⟨rp, hrp, hrpall⟩ := hr
          rw [List.append_nil] at hrp
          exact ⟨rp, by rw [List.append_nil, hrp],
            fun u hu => List.mem_cons_of_mem _ (hrpall u hu)⟩
        · exact List.mem_map_of_mem kf (List.mem_append_left _
            (List.mem_append_right _ hlmem))
    · -- both heads present
      subst hls; subst hrs
      cases hNL : notLocal3 kf df l r (kf ru) with
      | true =>
        have hkr : kf ru ∉ done := hheadR ru rs' rfl
        rw [match3Loop_eq_remote kf df b l r fuel (lu :: ls') ru rs' done out hNL hkr]
        have h1 := dropWhile_length_le (fun u => decide (kf u ∈ kf ru :: done)) (lu :: ls')
        have h2 := dropWhile_length_le (fun u => decide (kf u ∈ kf ru :: done)) rs'
        obtain ⟨rp, hrp, hrpall⟩ := hr
        have hrmem : ru ∈ r := by rw [hrp]; exact List.mem_append_right _ (List.mem_cons_self _ _)
        apply LoopGoal_mono
        apply ih
        · simp only [List.length_cons] at hfuel h1 ⊢
          omega
        · refine LoopInv_emit kf b l r (lu :: ls') rs' done out (kf ru) ?_ ?_ hnd hkr ?_ hsub hout
          · obtain ⟨lp, hlp, hlpall⟩ := hl
            exact ⟨lp, hlp, fun u hu => List.mem_cons_of_mem _ (hlpall u hu)⟩
          · refine ⟨rp ++ [ru], ?_, ?_⟩
            · rw [List.append_assoc, List.singleton_append, hrp]
            · intro u hu
              rcases List.mem_append.mp hu with hu | hu
              · exact List.mem_cons_of_mem _ (hrpall u hu)
              · rcases List.mem_singleton.mp hu with rfl
                exact List.mem_cons_self _ _
          · exact List.mem_map_of_mem kf (List.mem_append_right _ hrmem)
      | false =>
        have hkl : kf lu ∉ done := hheadL lu ls' rfl
        rw [match3Loop_eq_local kf df b l r fuel lu ls' ru rs' done out hNL hkl]
        have h1 := dropWhile_length_le (fun u => decide (kf u ∈ kf lu :: done)) ls'
        have h2 := dropWhile_length_le (fun u => decide (kf u ∈ kf lu :: done)) (ru :: rs')
        obtain ⟨lp, hlp, hlpall⟩ := hl
        have hlmem : lu ∈ l := by rw [hlp]; exact List.mem_append_right _ (List.mem_cons_self _ _)
        apply LoopGoal_mono
        apply ih
        · simp only [List.length_cons] at hfuel h2 ⊢
          omega
        · refine LoopInv_emit kf b l r ls' (ru :: rs') done out (kf lu) ?_ ?_ hnd hkl ?_ hsub hout
          · refine ⟨lp ++ [lu], ?_, ?_⟩
            · rw [List.append_assoc, List.singleton_append, hlp]
            · intro u hu
              rcases List.mem_append.mp hu with hu | hu
              · exact List.mem_cons_of_mem _ (hlpall u hu)
              · rcases List.mem_singleton.mp hu with rfl
                exact List.mem_cons_self _ _
          · obtain ⟨rp, hrp, hrpall⟩ := hr
            exact ⟨rp, hrp, fun u hu => List.mem_cons_of_mem _ (hrpall u hu)⟩
          · exact List.mem_map_of_mem kf (List.mem_append_left _
              (List.mem_append_right _ hlmem))

/-- Base-drain correctness: the drain emits the slot of every base key not
already done, preserving duplicate-freeness and the output/`done` mirror. -/
theorem drain3_ok {U K : Type} [DecidableEq K] (kf : U → K) (b l r : List U) :
    ∀ (bs : List U) (done : List K) (out : List (T3 U)),
      done.Nodup →
      (∀ k ∈ done, k ∈ (b ++ l ++ r).map kf) →
      (∀ u ∈ bs, u ∈ b) →
      out = done.reverse.map (slotT3 kf b l r) →
      ∃ done', drain3 kf b l r bs done out = (done'.reverse.map (slotT3 kf b l r), done') ∧
        done'.Nodup ∧ (∀ u ∈ bs, kf u ∈ done') ∧ (∀ k ∈ done, k ∈ done') ∧
        (∀ k ∈ done', k ∈ (b ++ l ++ r).map kf) := by
  intro bs
  induction bs with
  | nil =>
    intro done out hnd hsub _ hout
    exact ⟨done, by rw [drain3, hout], hnd, by simp, fun k hk => hk, hsub⟩
  | cons bu bs ih =>
    intro done out hnd hsub hbs hout
    by_cases hk : kf bu ∈ done
    · rw [show drain3 kf b l r (bu :: bs) done out = drain3 kf b l r bs done out from by
        simp [drain3, hk]]
      obtain ⟨done', h1, h2, h3, h4, h5⟩ :=
        ih done out hnd hsub (fun u hu => hbs u (List.mem_cons_of_mem _ hu)) hout
      refine ⟨done', h1, h2, ?_, h4, h5⟩
      intro u hu
      rcases List.mem_cons.mp hu with rfl | hu
      · exact h4 _ hk
      · exact h3 u hu
    · rw [show drain3 kf b l r (bu :: bs) done out =
          drain3 kf b l r bs (kf bu :: done) (out ++ [slotT3 kf b l r (kf bu)]) from by
        simp [drain3, hk]]
      have hbumem : kf bu ∈ (b ++ l ++ r).map kf :=
        List.mem_map_of_mem kf (List.mem_append_left _
          (List.mem_append_left _ (hbs bu (List.mem_cons_self _ _))))
      obtain ⟨done', h1, h2, h3, h4, h5⟩ :=
        ih (kf bu :: done) (out ++ [slotT3 kf b l r (kf bu)])
          (List.nodup_cons.mpr ⟨hk, hnd⟩)
          (fun k hkm => by
            rcases List.mem_cons.mp hkm with rfl | hkm
            · exact hbumem
            · exact hsub k hkm)
          (fun u hu => hbs u (List.mem_cons_of_mem _ hu))
          (by rw [hout, List.reverse_cons, List.map_append]; rfl)
      refine ⟨done', h1, h2, ?_, ?_, h5⟩
      · intro u hu
        rcases List.mem_cons.mp hu with rfl | hu
        · exact h4 _ (List.mem_cons_self _ _)
        · exact h3 u hu
      · exact fun k hkm => h4 k (List.mem_cons_of_mem _ hkm)

/-- The present components of a triple. -/
def t3Components {U : Type} (t : T3 U) : List U :=
  t.1.toList ++ t.2.1.toList ++ t.2.2.toList

/-- Whether some present component of `t` has key `k`. -/
def t3HasKey {U K : Type} [DecidableEq K] (kf : U → K) (t : T3 U) (k : K) : Bool :=
  (t3Components t).any (fun u => decide (kf u = k))

/-- Every present component of the slot of `k` has key `k`. -/
theorem slotT3_components_key {U K : Type} [DecidableEq K] (kf : U → K) (b l r : List U)
    (k : K) : ∀ u ∈ t3Components (slotT3 kf b l r k), kf u = k := by
  intro u hu
  rcases List.mem_append.mp hu with hu | hu
  · rcases List.mem_append.mp hu with hu | hu
    · cases hb : lookupLast kf b k with
      | none => rw [show (slotT3 kf b l r k).1 = none from hb] at hu; cases hu
      | some v =>
        rw [show (slotT3 kf b l r k).1 = some v from hb] at hu
        rcases List.mem_singleton.mp hu with rfl
        exact (lookupLast_mem_key kf b k u hb).2
    · cases hb : lookupLast kf l k with
      | none => rw [show (slotT3 kf b l r k).2.1 = none from hb] at hu; cases hu
      | some v =>
        rw [show (slotT3 kf b l r k).2.1 = some v from hb] at hu
        rcases List.mem_singleton.mp hu with rfl
        exact (lookupLast_mem_key kf l k u hb).2
  · cases hb : lookupLast kf r k with
    | none => rw [show (slotT3 kf b l r k).2.2 = none from hb] at hu; cases hu
    | some v =>
      rw [show (slotT3 kf b l r k).2.2 = some v from hb] at hu
      rcases List.mem_singleton.mp hu with rfl
      exact (lookupLast_mem_key kf r k u hb).2

/-- A key present in some input has a non-empty slot. -/
theorem slotT3_components_ne_nil {U K : Type} [DecidableEq K] (kf : U → K)
    (b l r : List U) (k : K) (hk : k ∈ (b ++ l ++ r).map kf) :
    t3Components (slotT3 kf b l r k) ≠ [] := by
  obtain ⟨u, hu, hku⟩ := List.mem_map.mp hk
  subst hku
  rcases List.mem_append.mp hu with hu | hu
  · rcases List.mem_append.mp hu with hu | hu
    · have hs := lookupLast_isSome_of_mem kf hu
      intro hnil
      obtain ⟨v, hv⟩ := Option.isSome_iff_exists.mp hs
      have : v ∈ t3Components (slotT3 kf b l r (kf u)) :=
        List.mem_append_left _ (List.mem_append_left _
          (by rw [show (slotT3 kf b l r (kf u)).1 = some v from hv]; exact List.mem_singleton.mpr rfl))
      rw [hnil] at this
      cases this
    · have hs := lookupLast_isSome_of_mem kf hu
      intro hnil
      obtain ⟨v, hv⟩ := Option.isSome_iff_exists.mp hs
      have : v ∈ t3Components (slotT3 kf b l r (kf u)) :=
        List.mem_append_left _ (List.mem_append_right _
          (by rw [show (slotT3 kf b l r (kf u)).2.1 = some v from hv]; exact List.mem_singleton.mpr rfl))
      rw [hnil] at this
      cases this
  · have hs := lookupLast_isSome_of_mem kf hu
    intro hnil
    obtain ⟨v, hv⟩ := Option.isSome_iff_exists.mp hs
    have : v ∈ t3Components (slotT3 kf b l r (kf u)) :=
      List.mem_append_right _
        (by rw [show (slotT3 kf b l r (kf u)).2.2 = some v from hv]; exact List.mem_singleton.mpr rfl)
    rw [hnil] at this
    cases this

/-- For keys of the input, `t3HasKey` on a slot decides equality of keys. -/
theorem t3HasKey_slot {U K : Type} [DecidableEq K] (kf : U → K) (b l r : List U)
    (k' k : K) (hk' : k' ∈ (b ++ l ++ r).map kf) :
    t3HasKey kf (slotT3 kf b l r k') k = decide (k' = k) := by
  by_cases he : k' = k
  · subst he
    rw [decide_eq_true rfl]
    unfold t3HasKey
    have hne := slotT3_components_ne_nil kf b l r k' hk'
    cases hc : t3Components (slotT3 kf b l r k') with
    | nil => exact absurd hc hne
    | cons v vs =>
      have hv : v ∈ t3Components (slotT3 kf b l r k') := by
        rw [hc]; exact List.mem_cons_self _ _
      rw [List.any_eq_true]
      exact ⟨v, List.mem_cons_self _ _,
        decide_eq_true (slotT3_components_key kf b l r k' v hv)⟩
  · rw [decide_eq_false he]
    unfold t3HasKey
    rw [List.any_eq_false]
    intro v hv hkv
    exact he ((slotT3_components_key kf b l r k' v hv) ▸ of_decide_eq_true hkv)

/-- C1: for inputs in which no key occurs twice within one sequence,
`SetMatcher3.match` succeeds (all its assertions hold) and emits a finite
sequence of triples such that every key occurring in any of the three
inputs appears in exactly one emitted triple, every emitted triple has at
least one present component, and all present components of a triple share
the same key. -/
theorem setMatcher3_match_correct {U K : Type} [DecidableEq K] (kf : U → K) (df : U → Bool)
    (b l r : List U)
    (hbn : (b.map kf).Nodup) (hln : (l.map kf).Nodup) (hrn : (r.map kf).Nodup) :
    ∃ out, match3 kf df b l r = Except.ok out ∧
      (∀ k, k ∈ (b ++ l ++ r).map kf →
        (out.filter (fun t => t3HasKey kf t k)).length = 1) ∧
      (∀ t ∈ out, t3Components t ≠ [] ∧
        ∀ u ∈ t3Components t, ∀ v ∈ t3Components t, kf u = kf v) := by
  have hloop := match3Loop_ok kf df b l r (l.length + r.length + 1) l r [] []
    (by omega)
    ⟨⟨[], rfl, by simp⟩, ⟨[], rfl, by simp⟩, List.nodup_nil, by simp, rfl,
      fun lu ls' _ => by simp, fun ru rs' _ => by simp⟩
  obtain ⟨d₁, hres, hnd₁, hcovl, hcovr, _, hsub₁⟩ := hloop
  obtain ⟨d₂, hdrain, hnd₂, hcovb, hd₁d₂, hsub₂⟩ :=
    drain3_ok kf b l r b d₁ (d₁.reverse.map (slotT3 kf b l r)) hnd₁ hsub₁
      (fun u hu => hu) rfl
  have hall : ((b ++ l ++ r).map kf).all (fun k => decide (k ∈ d₂)) = true := by
    rw [List.all_eq_true]
    intro k hk
    apply decide_eq_true
    obtain ⟨u, hu, rfl⟩ := List.mem_map.mp hk
    rcases List.mem_append.mp hu with hu | hu
    · rcases List.mem_append.mp hu with hu | hu
      · exact hcovb u hu
      · exact hd₁d₂ _ (hcovl u hu)
    · exact hd₁d₂ _ (hcovr u hu)
  refine ⟨d₂.reverse.map (slotT3 kf b l r), ?_, ?_, ?_⟩
  · unfold match3
    rw [hres, except_bind_ok]
    simp only [hdrain]
    rw [hall]
    rfl
  · intro k hk
    have hkd₂ : k ∈ d₂ := by
      obtain ⟨u, hu, rfl⟩ := List.mem_map.mp hk
      rcases List.mem_append.mp hu with hu | hu
      · rcases List.mem_append.mp hu with hu | hu
        · exact hcovb u hu
        · exact hd₁d₂ _ (hcovl u hu)
      · exact hd₁d₂ _ (hcovr u hu)
    rw [filter_map_comm (slotT3 kf b l r) (fun t => t3HasKey kf t k) d₂.reverse,
      List.length_map]
    have e := filter_congr_mem (l := d₂.reverse)
      (p := fun k' => t3HasKey kf (slotT3 kf b l r k') k)
      (q := fun k' => decide (k' = k))
      (fun k' hk' => t3HasKey_slot kf b l r k' k (hsub₂ k' (List.mem_reverse.mp hk')))
    rw [e, filter_eq_singleton_of_nodup (List.nodup_reverse.mpr hnd₂)
      (List.mem_reverse.mpr hkd₂)]
    rfl
  · intro t ht
    obtain ⟨k', hk', rfl⟩ := List.mem_map.mp ht
    have hmem : k' ∈ (b ++ l ++ r).map kf := hsub₂ k' (List.mem_reverse.mp hk')
    exact ⟨slotT3_components_ne_nil kf b l r k' hmem,
      fun u hu v hv => (slotT3_components_key kf b l r k' u hu).trans
        (slotT3_components_key kf b l r k' v hv).symm⟩

/-- Witness for C1 on concrete inputs with distinct keys. -/
theorem setMatcher3_match_correct_witness :
    (([1, 2] : List Nat).map id).Nodup ∧ (([2, 3] : List Nat).map id).Nodup ∧
    (([3, 4] : List Nat).map id).Nodup ∧
    (∃ out, match3 (id : Nat → Nat) (fun _ => false) [1, 2] [2, 3] [3, 4] = Except.ok out ∧
      (∀ k, k ∈ (([1, 2] ++ [2, 3] ++ [3, 4] : List Nat)).map id →
        (out.filter (fun t => t3HasKey id t k)).length = 1) ∧
      (∀ t ∈ out, t3Components t ≠ [] ∧
        ∀ u ∈ t3Components t, ∀ v ∈ t3Components t, id u = id v)) :=
  ⟨by decide, by decide, by decide,
    setMatcher3_match_correct id (fun _ => false) [1, 2] [2, 3] [3, 4]
      (by decide) (by decide) (by decide)⟩

end Podiffutils

